import Mathlib

/-!
Verification of `pipelines/internal/commands/run/run.go` (package `run` of
pipelines-tools): a shallow embedding of the script parser, the localization
planner, the directory merger, the request assembler and the execution
controller, together with proofs of the specified properties.

Go strings are modelled as Lean `String`s and byte-level operations are
modelled on the character list (`String.toList`); this coincides with Go's
byte-level behaviour on ASCII data, which is the data domain of every
property below.  Go maps are modelled as association lists built with an
insert-or-overwrite operation; where the source iterates over a Go map
(whose iteration order is unspecified and randomized by the Go runtime),
the model takes the enumeration as an explicit parameter.
-/

namespace Run

/-! ## Models of the Go standard library functions used by run.go -/

/-- Models `unicode.IsSpace` restricted to the ASCII white space characters
(space, tab, newline, vertical tab, form feed, carriage return). -/
def goIsSpace (c : Char) : Bool :=
  c = ' ' || c = '\t' || c = '\n' || c = '\r' || c.toNat = 11 || c.toNat = 12

/-- Helper for `goFields`: splits a character list on runs of white space. -/
def goFieldsAux : List Char → List Char → List (List Char)
  | [], acc => if acc.isEmpty then [] else [acc.reverse]
  | c :: rest, acc =>
    if goIsSpace c then
      if acc.isEmpty then goFieldsAux rest []
      else acc.reverse :: goFieldsAux rest []
    else goFieldsAux rest (c :: acc)

/-- Models `strings.Fields`: the maximal runs of non-white-space characters. -/
def goFields (s : String) : List String :=
  (goFieldsAux s.toList []).map List.asString

/-- Models `strings.TrimSpace` (ASCII white space). -/
def goTrimSpace (s : String) : String :=
  ((s.toList.dropWhile goIsSpace).reverse.dropWhile goIsSpace).reverse.asString

/-- Models `strings.HasPrefix(s, pre)`. -/
def goHasPrefix (s pre : String) : Bool :=
  pre.toList.isPrefixOf s.toList

/-- Models `strings.HasSuffix(s, suf)`. -/
def goHasSuffix (s suf : String) : Bool :=
  suf.toList.isSuffixOf s.toList

/-- Models `strings.TrimPrefix(s, pre)`. -/
def goTrimPre (s pre : String) : String :=
  if pre.toList.isPrefixOf s.toList then (s.toList.drop pre.toList.length).asString else s

/-- Models `strings.TrimRight(s, "*")`: removes all trailing `*` characters. -/
def goTrimRightStar (s : String) : String :=
  (s.toList.reverse.dropWhile (fun c => c == '*')).reverse.asString

/-- Models `strings.ToUpper` on ASCII data (the script flags of run.go). -/
def goToUpper (s : String) : String :=
  (s.toList.map Char.toUpper).asString

/-- Helper for `splitOnChar`. -/
def splitOnCharAux (c : Char) : List Char → List Char → List (List Char)
  | [], acc => [acc.reverse]
  | d :: rest, acc =>
    if d = c then acc.reverse :: splitOnCharAux c rest []
    else splitOnCharAux c rest (d :: acc)

/-- Models `strings.Split(s, sep)` for a one-character separator (run.go only
splits on `";"`, `","` and `"/"`). -/
def splitOnChar (c : Char) (s : String) : List String :=
  (splitOnCharAux c s.toList []).map List.asString

/-- Models `strings.Index(s, t)` for a one-character `t`: the index of the
first occurrence, or `-1`. -/
def goIndexChar (c : Char) (s : String) : Int :=
  match s.toList.findIdx? (fun d => d == c) with
  | some i => (i : Int)
  | none => -1

/-- `(s.toList.take n).asString`; models the Go slice `s[:n]` on ASCII data. -/
def strTake (s : String) (n : Nat) : String :=
  (s.toList.take n).asString

/-- `(s.toList.drop n).asString`; models the Go slice `s[n:]` on ASCII data. -/
def strDrop (s : String) (n : Nat) : String :=
  (s.toList.drop n).asString

/-- Models `fmt.Sprintf("%q", s)` for strings that need no escaping (the only
use sites quote paths and port mapping pairs). -/
def goQuote (s : String) : String :=
  "\"" ++ s ++ "\""

/-- Association-list model of a Go map write `m[k] = v`: overwrites the value
of an existing key and otherwise appends the new binding. -/
def mapSet {α : Type} (m : List (String × α)) (k : String) (v : α) : List (String × α) :=
  if m.any (fun p => p.1 == k) then m.map (fun p => if p.1 == k then (k, v) else p)
  else m ++ [(k, v)]

/-- Association-list model of a Go map read `m[k]`. -/
def mapLookup {α : Type} (m : List (String × α)) (k : String) : Option α :=
  (m.find? (fun p => p.1 == k)).map (fun p => p.2)

/-- Decidable equality of `Except` results, used to evaluate the embedded
fallible functions at concrete inputs. -/
instance {ε α : Type} [DecidableEq ε] [DecidableEq α] : DecidableEq (Except ε α) := fun x y =>
  match x, y with
  | .ok a, .ok b =>
    if h : a = b then isTrue (by rw [h]) else isFalse (fun hh => h (Except.ok.inj hh))
  | .error a, .error b =>
    if h : a = b then isTrue (by rw [h]) else isFalse (fun hh => h (Except.error.inj hh))
  | .ok _, .error _ => isFalse (fun hh => Except.noConfusion hh)
  | .error _, .ok _ => isFalse (fun hh => Except.noConfusion hh)

/-- Models `strconv.ParseInt(s, 10, 64)`: an optional sign followed by ASCII
decimal digits, rejecting the empty digit string and 64-bit overflow. -/
def goParseInt64 (s : String) : Option Int :=
  match s.toList with
  | [] => none
  | c :: cs =>
    let p : Bool × List Char :=
      if c = '-' then (true, cs) else if c = '+' then (false, cs) else (false, c :: cs)
    if p.2.isEmpty then none
    else if p.2.all Char.isDigit then
      let n : Nat := p.2.foldl (fun a d => a * 10 + (d.toNat - 48)) 0
      if p.1 then
        if n ≤ 2 ^ 63 then some (-(n : Int)) else none
      else
        if n ≤ 2 ^ 63 - 1 then some (n : Int) else none
    else none

/-- Numeric value of a list of ASCII digits. -/
def digitsVal (ds : List Char) : Nat :=
  ds.foldl (fun a d => a * 10 + (d.toNat - 48)) 0

/-- Nanosecond multiplier of a `time.ParseDuration` unit. -/
def durationUnitNs (u : String) : Option Int :=
  if u = "ns" then some 1
  else if u = "us" then some 1000
  else if u = "ms" then some 1000000
  else if u = "s" then some 1000000000
  else if u = "m" then some 60000000000
  else if u = "h" then some 3600000000000
  else none

/-- Component loop of `time.ParseDuration`: repeated `digits[.digits]unit`
components summed in nanoseconds.  The fractional part is scaled by integer
division (Go uses floating point there); no property below exercises it. -/
def parseDurationLoop : Nat → List Char → Int → Option Int
  | 0, _, _ => none
  | _ + 1, [], acc => some acc
  | fuel + 1, cs, acc =>
    let intPart := cs.takeWhile Char.isDigit
    let rest1 := cs.dropWhile Char.isDigit
    let frac : List Char × List Char :=
      match rest1 with
      | '.' :: r => (r.takeWhile Char.isDigit, r.dropWhile Char.isDigit)
      | _ => ([], rest1)
    if intPart.isEmpty && frac.1.isEmpty then none
    else
      let unit := frac.2.takeWhile (fun c => !c.isDigit && c != '.')
      let rest3 := frac.2.drop unit.length
      match durationUnitNs unit.asString with
      | none => none
      | some mult =>
        let add : Int := (digitsVal intPart : Int) * mult +
          ((digitsVal frac.1 : Int) * mult) / ((10 ^ frac.1.length : Nat) : Int)
        parseDurationLoop fuel rest3 (acc + add)

/-- Models `time.ParseDuration` (ASCII forms; see `parseDurationLoop`),
returning nanoseconds. -/
def goParseDurationNs (s : String) : Option Int :=
  let p : Bool × List Char :=
    match s.toList with
    | c :: rest => if c = '-' then (true, rest) else if c = '+' then (false, rest) else (false, s.toList)
    | [] => (false, [])
  if p.2.asString = "0" then some 0
  else if p.2.isEmpty then none
  else
    match parseDurationLoop (p.2.length + 1) p.2 0 with
    | none => none
    | some v => some (if p.1 then -v else v)

/-- Rounds `a / b` (for `b > 0`) half to even, as `fmt.Sprintf("%.0f", ...)`
does for the exactly representable values used here. -/
def roundHalfEvenDiv (a b : Int) : Int :=
  let q := Int.fdiv a b
  let r := a - q * b
  if 2 * r < b then q else if 2 * r > b then q + 1 else if q % 2 = 0 then q else q + 1

/-- Models `fmt.Sprintf("%.0fs", d.Seconds())` for a duration of `ns`
nanoseconds. -/
def formatSecondsNs (ns : Int) : String :=
  toString (roundHalfEvenDiv ns 1000000000) ++ "s"

/-- Loop of the `path.Clean` model: processes `/`-separated elements,
dropping empty and `.` elements and resolving `..` against the stack. -/
def pathCleanLoop (rooted : Bool) : List String → List String → List String
  | [], acc => acc.reverse
  | p :: rest, acc =>
    if p = "" || p = "." then pathCleanLoop rooted rest acc
    else if p = ".." then
      match acc with
      | [] => if rooted then pathCleanLoop rooted rest [] else pathCleanLoop rooted rest [".."]
      | t :: acc' =>
        if t = ".." then pathCleanLoop rooted rest (".." :: t :: acc')
        else pathCleanLoop rooted rest acc'
    else pathCleanLoop rooted rest (p :: acc)

/-- Models `path.Clean`. -/
def pathClean (p : String) : String :=
  if p = "" then "."
  else
    let rooted := p.toList.headD ' ' == '/'
    let parts := pathCleanLoop rooted (splitOnChar '/' p) []
    if rooted then
      if parts.isEmpty then "/" else "/" ++ String.intercalate "/" parts
    else
      if parts.isEmpty then "." else String.intercalate "/" parts

/-- Models `path.Join`: joins the elements from the first non-empty one with
`/` and cleans the result.  Dropping the empty elements first is equivalent,
because `pathClean` collapses the empty segments they would produce. -/
def pathJoin (elems : List String) : String :=
  let nonEmpty := elems.filter (fun e => e ≠ "")
  if nonEmpty.isEmpty then "" else pathClean (String.intercalate "/" nonEmpty)

/-- Models `path.Dir`: everything up to and including the final `/`, cleaned;
`.` when there is no `/`. -/
def pathDir (p : String) : String :=
  let cs := p.toList
  match cs.reverse.findIdx? (fun c => c == '/') with
  | none => "."
  | some j => pathClean ((cs.take (cs.length - j)).asString)

/-- The standard base64 alphabet. -/
def base64Alphabet : List Char :=
  "ABCDEFGHIJKLMNOPQRSTUVWXYZabcdefghijklmnopqrstuvwxyz0123456789+/".toList

/-- The base64 digit for a 6-bit value. -/
def base64Digit (n : Nat) : Char :=
  base64Alphabet.getD n 'A'

/-- Models `base64.StdEncoding.EncodeToString` on a byte list. -/
def base64Encode : List Nat → List Char
  | [] => []
  | [b1] => [base64Digit (b1 / 4), base64Digit (b1 % 4 * 16), '=', '=']
  | [b1, b2] =>
    [base64Digit (b1 / 4), base64Digit (b1 % 4 * 16 + b2 / 16), base64Digit (b2 % 16 * 4), '=']
  | b1 :: b2 :: b3 :: rest =>
    base64Digit (b1 / 4) :: base64Digit (b1 % 4 * 16 + b2 / 16) ::
      base64Digit (b2 % 16 * 4 + b3 / 64) :: base64Digit (b3 % 64) :: base64Encode rest

/-- Helper: index of the first occurrence of `sub` in a character list. -/
def indexOfSubAux (sub : List Char) : List Char → Nat → Option Nat
  | [], i => if sub.isEmpty then some i else none
  | c :: rest, i => if sub.isPrefixOf (c :: rest) then some i else indexOfSubAux sub rest (i + 1)

/-- Part of the `net/url.Parse` model: strips a leading `scheme:` when the
text before the first `:` is a syntactically valid scheme. -/
def urlSplitScheme (cs : List Char) : List Char :=
  match cs.findIdx? (fun c => c == ':') with
  | none => cs
  | some i =>
    match cs.take i with
    | [] => cs
    | c0 :: rest0 =>
      if c0.isAlpha && rest0.all (fun c => c.isAlpha || c.isDigit || c == '+' || c == '-' || c == '.')
      then cs.drop (i + 1) else cs

/-- Part of the `net/url.Parse` model: `url.Parse(s).Host`.  After stripping
any scheme, an authority introduced by `//` extends to the next `/`; any
other input has an empty host.  Userinfo, ports and query/fragment
delimiters do not occur in the inputs of the properties below. -/
def urlHost (s : String) : String :=
  let rest := urlSplitScheme s.toList
  if ['/', '/'].isPrefixOf rest then ((rest.drop 2).takeWhile (fun c => c != '/')).asString
  else ""

/-- Part of the `net/url.Parse` model: `url.Parse` fails only on inputs
containing an ASCII control character (invalid percent escapes, which also
fail in Go, do not occur in the inputs of the properties below). -/
def urlParseOk (s : String) : Bool :=
  s.toList.all (fun c => decide (32 ≤ c.toNat) && c.toNat != 127)

/-! ## Data model (the used fields of the genomics v2alpha1 API types) -/

/-- `genomics.Mount`. -/
structure Mount where
  disk : String := ""
  path : String := ""
deriving DecidableEq

/-- The fields of `genomics.Action` populated by run.go.  Go zero values
(empty string, nil slice, nil map) are the defaults. -/
structure Action where
  imageUri : String := ""
  entrypoint : String := ""
  commands : List String := []
  flags : List String := []
  mounts : List Mount := []
  portMappings : List (String × Int) := []
  timeout : String := ""
  pidNamespace : String := ""
deriving DecidableEq

/-- `genomics.Disk` (the fields populated by `addRequiredDisks`). -/
structure Disk where
  name : String := ""
  type : String := ""
  sizeGb : Int := 0
  sourceImage : String := ""
deriving DecidableEq

/-- The flag values of run.go consumed by the embedded functions, with the
source's default values.  `envFlags` models the `--set`-populated initial
contents of the global `environment` map; durations are in nanoseconds. -/
structure Config where
  cloudSDKImage : String := "gcr.io/cloud-genomics-pipelines/io"
  defaultImage : String := "bash"
  inputs : String := ""
  outputs : String := ""
  fuse : Bool := false
  ssh : Bool := false
  output : String := ""
  outputIntervalNs : Int := 0
  command : String := ""
  sharePIDs : Bool := false
  diskType : String := ""
  diskSizeGb : Int := 0
  diskImage : String := ""
  envFlags : List (String × String) := []
deriving DecidableEq

/-- `var googleRoot = &genomics.Mount{Disk: "google", Path: "/mnt/google"}`. -/
def googleRoot : Mount := { disk := "google", path := "/mnt/google" }

/-! ## The execution controller (`runPipeline`) -/

/-- The outcome `watch.Invoke` reports for one monitored attempt: success, a
fatal error, or an error whose `IsRetriable()` is true. -/
inductive WatchResult where
  | success
  | fatalError
  | retriableError
deriving DecidableEq

/-- Terminal outcome of `runPipeline`: `nil` or an error. -/
inductive RunOutcome where
  | success
  | failure
deriving DecidableEq

/-- The retry loop of `runPipeline` (run.go lines 217-251), recording the
`Preemptible` value of every submission.  `watch` gives the monitored outcome
of each attempt; submission itself is assumed to succeed (a submission error
would return immediately and is not part of the properties below).  The
structurally decreasing `fuel` argument is initialised so that it never
reaches 0 on the loop's reachable states. -/
def runPipelineLoop (pvmAttempts attempts : Nat) (wait : Bool) (watch : Nat → WatchResult) :
    Nat → Nat → List Bool × RunOutcome
  | _, 0 => ([], .failure)
  | attempt, fuel + 1 =>
    let preemptible := decide (attempt ≤ pvmAttempts)
    if !wait then ([preemptible], .success)
    else
      match watch attempt with
      | .success => ([preemptible], .success)
      | .fatalError => ([preemptible], .failure)
      | .retriableError =>
        if attempt < pvmAttempts + attempts then
          let rest := runPipelineLoop pvmAttempts attempts wait watch (attempt + 1) fuel
          (preemptible :: rest.1, rest.2)
        else ([preemptible], .failure)

/-- `runPipeline`, starting at `attempt := 1`. -/
def runPipeline (pvmAttempts attempts : Nat) (wait : Bool) (watch : Nat → WatchResult) :
    List Bool × RunOutcome :=
  runPipelineLoop pvmAttempts attempts wait watch 1 (pvmAttempts + attempts + 1)

/-! ## The script/action parser -/

/-- `isCloudCommand` (run.go lines 584-586). -/
def isCloudCommand (command : String) : Bool :=
  command == "gsutil" || command == "gcloud"

/-- The error cases of `parsePorts` (run.go lines 665-679), carrying the text
the Go errors format in: `"invalid port mapping %q"` quotes the offending
pair, and the `strconv` error inside `"parsing host port: %v"` quotes the
offending port text. -/
inductive PortError where
  | invalidMapping (pair : String)
  | invalidPort (portText : String)
deriving DecidableEq

/-- Loop of `parsePorts` over the `;`-separated pairs. -/
def parsePortsAux : List String → List (String × Int) → Except PortError (List (String × Int))
  | [], ports => .ok ports
  | pair :: rest, ports =>
    let cs := pair.toList
    match cs.findIdx? (fun c => c == ':') with
    | none => .error (.invalidMapping pair)
    | some i =>
      if i < 1 then .error (.invalidMapping pair)
      else
        match goParseInt64 ((cs.drop (i + 1)).asString) with
        | none => .error (.invalidPort ((cs.drop (i + 1)).asString))
        | some n => parsePortsAux rest (mapSet ports ((cs.take i).asString) n)

/-- `parsePorts` (run.go lines 665-679).  `strings.Index(pair, ":") < 1`
covers both an absent `:` (index `-1`) and one at position 0. -/
def parsePorts (input : String) : Except PortError (List (String × Int)) :=
  parsePortsAux (splitOnChar ';' input) []

/-- The error cases of `parse` (run.go lines 493-537). -/
inductive ParseErr where
  | timeoutErr (text : String)
  | portsErr (e : PortError)
deriving DecidableEq

/-- `detectImage` (run.go lines 539-547). -/
def detectImage (cfg : Config) (command : List String) (options : List (String × String)) :
    String :=
  match mapLookup options "image" with
  | some image => image
  | none =>
    match command with
    | c :: _ => if isCloudCommand c then cfg.cloudSDKImage else cfg.defaultImage
    | [] => cfg.defaultImage

/-- The option loop of `parse`: each `#`-section field either populates the
options map (when it contains `=`, including at index 0) or is upper-cased
into the flag list. -/
def parseOption (acc : List (String × String) × List String) (opt : String) :
    List (String × String) × List String :=
  match opt.toList.findIdx? (fun c => c == '=') with
  | some i => (mapSet acc.1 ((opt.toList.take i).asString) ((opt.toList.drop (i + 1)).asString), acc.2)
  | none => (acc.1, acc.2 ++ [goToUpper opt])

/-- `parse` (run.go lines 493-537).  Note that it always returns an action:
the source has no branch returning a nil action, so the `action != nil`
guard in `parseFile` never fails. -/
def parse (cfg : Config) (line : String) : Except ParseErr Action := do
  let hashIdx := line.toList.findIdx? (fun c => c == '#')
  let optFields : List String :=
    match hashIdx with
    | some n => goFields (goTrimSpace ((line.toList.drop (n + 1)).asString))
    | none => []
  let opts := optFields.foldl parseOption ([], [])
  let cmdText : String :=
    match hashIdx with
    | some n => (line.toList.take n).asString
    | none => line
  let fields := goFields (goTrimSpace cmdText)
  let bg := fields.getLast? == some "&"
  let tokens := if bg then fields.dropLast else fields
  let flags := opts.2 ++ (if bg then ["RUN_IN_BACKGROUND"] else [])
  let cmds : List String × String :=
    if fields.isEmpty then ([], "") else (["-c", " ".intercalate tokens], "bash")
  let tmo : String ←
    match mapLookup opts.1 "timeout" with
    | none => pure ""
    | some t =>
      match goParseDurationNs t with
      | none => throw (.timeoutErr t)
      | some ns => pure (formatSecondsNs ns)
  let ports : List (String × Int) ←
    match mapLookup opts.1 "ports" with
    | none => pure []
    | some v =>
      match parsePorts v with
      | .ok p => pure p
      | .error e => throw (.portsErr e)
  pure { imageUri := detectImage cfg tokens opts.1, entrypoint := cmds.2, commands := cmds.1,
         flags := flags, mounts := [googleRoot], portMappings := ports, timeout := tmo }

/-- The scanner loop of `parseFile` (run.go lines 463-490) on the script's
lines: `\`-continuation joins lines, errors carry the 1-based line number,
and every parsed action is appended (the source's `action != nil` check is
always true, since `parse` always returns a non-nil action).  A trailing
unfinished continuation buffer is dropped, as in the source.  The JSON
fast paths of `parseFile` (raw request, action array) are outside the
properties below and are not modelled. -/
def parseLinesAux (cfg : Config) :
    List String → Nat → String → List Action → Except (Nat × ParseErr) (List Action)
  | [], _, _, actions => .ok actions
  | text :: rest, line, buffer, actions =>
    if goHasSuffix text "\\" then
      parseLinesAux cfg rest (line + 1) (buffer ++ (text.toList.dropLast).asString) actions
    else
      match parse cfg (buffer ++ text) with
      | .error e => .error (line + 1, e)
      | .ok action => parseLinesAux cfg rest (line + 1) "" (actions ++ [action])

/-- Whole-script parsing: `parseFile`'s line loop from the start state. -/
def parseLines (cfg : Config) (lines : List String) : Except (Nat × ParseErr) (List Action) :=
  parseLinesAux cfg lines 0 "" []

/-- Rendering of `ParseErr` as the Go error strings. -/
def renderParseErr : ParseErr → String
  | .timeoutErr t => "parsing action timeout: " ++ goQuote t
  | .portsErr (.invalidMapping pair) => "parsing ports: invalid port mapping " ++ goQuote pair
  | .portsErr (.invalidPort t) => "parsing ports: parsing host port: " ++ goQuote t

/-! ## Specifier lists and small helpers -/

/-- `listOf` (run.go lines 588-593). -/
def listOf (input : String) : List String :=
  if input = "" then [] else splitOnChar ',' input

/-- One iteration of the `namedListOf` loop (run.go lines 595-605): an entry
`NAME=path` (with `=` at index `> 0`) binds key `path` to value `NAME`; any
other non-empty entry binds key `entry` to value `defaultPre ++ n` where `n`
is the entry's index in the original comma-separated list. -/
def namedListEntry (defaultPre : String) (out : List (String × String)) (n : Nat)
    (item : String) : List (String × String) :=
  let i := goIndexChar '=' item
  if i > 0 then mapSet out (strDrop item (i.toNat + 1)) (strTake item i.toNat)
  else if item ≠ "" then mapSet out item (defaultPre ++ toString n)
  else out

/-- `namedListOf` (run.go lines 595-605): a map keyed by the path part of
each entry. -/
def namedListOf (input defaultPre : String) : List (String × String) :=
  ((splitOnChar ',' input).enum).foldl (fun out p => namedListEntry defaultPre out p.1 p.2) []

/-! ## Action constructors -/

/-- `bash` (run.go lines 697-704). -/
def bash (cfg : Config) (commands : List String) : Action :=
  { imageUri := cfg.cloudSDKImage, commands := ["-c", String.intercalate " && " commands],
    mounts := [googleRoot], entrypoint := "bash" }

/-- `gsutil` (run.go lines 681-683). -/
def gsutil (cfg : Config) (arguments : List String) : Action :=
  bash cfg ["gsutil -q " ++ String.intercalate " " arguments]

/-- `upload` (run.go lines 685-695).  `fs` models `ioutil.ReadFile`, giving
the byte contents of a readable local file. -/
def upload (cfg : Config) (fs : String → Option (List Nat)) (input output : String) :
    Except String Action :=
  match fs input with
  | none => .error ("reading input file: " ++ goQuote input)
  | some raw =>
    .ok (bash cfg ["mkdir -p " ++ goQuote (pathDir output),
                   "echo " ++ goQuote (base64Encode raw).asString ++ " | base64 -d > " ++ goQuote output])

/-- Helper for `goStringLe`: lexicographic comparison of character lists. -/
def goStringLeAux : List Char → List Char → Bool
  | [], _ => true
  | _ :: _, [] => false
  | x :: xs, y :: ys => if x < y then true else if y < x then false else goStringLeAux xs ys

/-- The string order `a <= b` used by `sort.Strings`: Go compares byte-wise,
which on UTF-8 data coincides with the code-point-wise comparison modelled
here. -/
def goStringLe (a b : String) : Bool :=
  goStringLeAux a.toList b.toList

/-- Insertion of one element into a `goStringLe`-sorted list. -/
def insertSorted (x : String) : List String → List String
  | [] => [x]
  | y :: ys => if goStringLe x y then x :: y :: ys else y :: insertSorted x ys

/-- Models `sort.Strings` (by insertion sort — the sorted permutation of a
list is unique for a total order, so the algorithm choice is immaterial). -/
def sortStrings : List String → List String
  | [] => []
  | x :: xs => insertSorted x (sortStrings xs)

/-- The merge scan of `mkdir` (run.go lines 712-719) over the sorted tail:
a next path that has the current output entry as a string prefix replaces
it; any other next path starts a new output entry. -/
def mergeLoop : List String → String → List String → List String
  | [], cur, acc => (cur :: acc).reverse
  | d :: rest, cur, acc =>
    if goHasPrefix d cur then mergeLoop rest d acc
    else mergeLoop rest d (cur :: acc)

/-- The argument list `mkdir` passes to `mkdir -p`: the directories sorted
lexicographically (`sort.Strings`) and merged by the prefix scan. -/
def mkdirArguments (directories : List String) : List String :=
  match sortStrings directories with
  | [] => []
  | d :: rest => mergeLoop rest d []

/-- `mkdir` (run.go lines 706-722): `nil` for an empty directory list. -/
def mkdir (cfg : Config) (directories : List String) : Option Action :=
  if directories.isEmpty then none
  else some (bash cfg ["mkdir -p " ++ String.intercalate " " (mkdirArguments directories)])

/-- `parseGCSPath` (run.go lines 737-743): the host of `url.Parse(input)`
and whether parsing succeeded.  The source never inspects the scheme, so
any control-character-free input — including a plain local path — yields
`ok = true`. -/
def parseGCSPath (input : String) : String × Bool :=
  if urlParseOk input then (urlHost input, true) else ("", false)

/-- `const gcsPrefix = "gs://"`. -/
def gcsPre : String := "gs://"

/-- `gcsJoin` (run.go lines 745-754). -/
def gcsJoin (input : List String) : String :=
  let parts := input.map (fun part => goTrimPre part gcsPre)
  match input with
  | first :: _ => if goHasPrefix first gcsPre then gcsPre ++ pathJoin parts else pathJoin parts
  | [] => pathJoin parts

/-- `gcsTransfer` (run.go lines 756-768) applied to its two arguments. -/
def gcsTransfer (cfg : Config) (remote fromPath toPath : String) : Action :=
  let f := goTrimRightStar fromPath
  let t := goTrimRightStar toPath
  if goHasSuffix remote "/**" then gsutil cfg ["-m", "cp", "-r", gcsJoin [f, "*"], t]
  else if goHasSuffix remote "/*" then gsutil cfg ["-m", "cp", gcsJoin [f, "*"], t]
  else gsutil cfg ["cp", f, t]

/-- `gcsFuse` (run.go lines 770-786) over an enumeration of the buckets map
(the Go map iteration order is taken as a parameter by the caller). -/
def gcsFuse (buckets : List (String × String)) : List Action :=
  buckets.foldl
    (fun actions p =>
      actions ++
        [{ imageUri := "gcr.io/cloud-genomics-pipelines/gcsfuse",
           commands := ["--implicit-dirs", "--foreground", p.1, p.2],
           flags := ["ENABLE_FUSE", "RUN_IN_BACKGROUND"], mounts := [googleRoot] },
         { imageUri := "gcr.io/cloud-genomics-pipelines/gcsfuse",
           commands := ["wait", p.2], mounts := [googleRoot] }])
    []

/-- `sshDebug` (run.go lines 788-795); its `project` argument is unused in
the source as well. -/
def sshDebug (_project : String) : Action :=
  { imageUri := "gcr.io/cloud-genomics-pipelines/tools", entrypoint := "ssh-server",
    portMappings := [("22", 22)], flags := ["RUN_IN_BACKGROUND"] }

/-! ## The request assembler (`buildRequest`, minus the remote services)

The JSON fast path (a raw `RunPipelineRequest` file) and the zone/region
expansion, which call remote services, are outside the properties below.
`fs` models `ioutil.ReadFile`; a `some lines` script models a non-empty
`filename` whose contents are not JSON; each `iter` parameter models one
Go map `range`, an arbitrary enumeration of the association list it is
applied to. -/

/-- `googlePath` inside `buildRequest` (run.go lines 272-274). -/
def googlePath (directory : String) : String :=
  pathJoin [googleRoot.path, ".google", directory]

/-- `inputRoot` (run.go line 276). -/
def inputRoot : String := googlePath "input"

/-- `outputRoot` (run.go line 277). -/
def outputRoot : String := googlePath "output"

/-- The accumulator state of the inputs loop of `buildRequest` (run.go lines
284-304): the localize actions, the environment map, the required-directory
list and the FUSE bucket map. -/
structure LocState where
  localizers : List Action := []
  environment : List (String × String) := []
  directories : List String := []
  buckets : List (String × String) := []
deriving DecidableEq

/-- One iteration of the inputs loop (run.go lines 285-304) for the map
entry `input ↦ name`.  The FUSE branch `continue`s before the glob-suffix
directory append; the remote branch emits a `gcsTransfer` copy; the
remaining branch reads and base64-encodes the local file via `upload`. -/
def localizeInput (cfg : Config) (fs : String → Option (List Nat)) (st : LocState)
    (input name : String) : Except String LocState :=
  let filename := gcsJoin [inputRoot, goTrimRightStar input]
  let env := mapSet st.environment name filename
  let gcs := parseGCSPath input
  if gcs.2 && cfg.fuse then
    .ok { st with environment := env,
                  buckets := mapSet st.buckets gcs.1 (pathJoin [inputRoot, gcs.1]) }
  else
    match
      (if gcs.2 then Except.ok (st.localizers ++ [gcsTransfer cfg input input filename])
       else
         match upload cfg fs input filename with
         | .ok action => Except.ok (st.localizers ++ [action])
         | .error e => Except.error ("processing " ++ goQuote input ++ ": " ++ e)) with
    | .error e => .error e
    | .ok localizers =>
      .ok { st with environment := env, localizers := localizers,
                    directories := if goHasSuffix input "*" then st.directories ++ [filename]
                                   else st.directories }

/-- The inputs loop (run.go lines 285-304) over an enumeration of the
`namedListOf` map, with `localizeInput` as the body; the first error
returns. -/
def localizeLoop (cfg : Config) (fs : String → Option (List Nat)) :
    List (String × String) → LocState → Except String LocState
  | [], st => .ok st
  | p :: rest, st =>
    match localizeInput cfg fs st p.1 p.2 with
    | .error e => .error e
    | .ok st' => localizeLoop cfg fs rest st'

/-- The localization plan: `TMPDIR` and the initial directory (run.go lines
279-280), the inputs loop, and the FUSE bucket actions (lines 306-311).
`inIter` enumerates the `namedListOf` map and `bucketIter` the buckets map
(the source iterates the buckets map twice; both iterations are modelled
with the same enumeration, which the properties below do not depend on). -/
def localizePlan (cfg : Config) (fs : String → Option (List Nat))
    (inIter bucketIter : List (String × String) → List (String × String)) :
    Except String LocState :=
  let st0 : LocState := { environment := mapSet cfg.envFlags "TMPDIR" (googlePath "tmp"),
                          directories := [googlePath "tmp"] }
  match localizeLoop cfg fs (inIter (namedListOf cfg.inputs "INPUT")) st0 with
  | .error e => .error e
  | .ok st =>
    if st.buckets.isEmpty then .ok st
    else
      .ok { st with
            directories := st.directories ++ (bucketIter st.buckets).map (fun p => p.2),
            localizers := st.localizers ++ gcsFuse (bucketIter st.buckets) }

/-- One iteration of the outputs loop of `buildRequest` (run.go lines
314-323) for the map entry `output ↦ name`, over the accumulator
(delocalizers, environment, directories). -/
def delocalizeOutputStep (cfg : Config)
    (acc : List Action × List (String × String) × List String) (output name : String) :
    List Action × List (String × String) × List String :=
  let filename := gcsJoin [outputRoot, goTrimRightStar output]
  (acc.1 ++ [gcsTransfer cfg output filename output],
   mapSet acc.2.1 name filename,
   if goHasSuffix output "*" then acc.2.2 ++ [filename] else acc.2.2 ++ [pathDir filename])

/-- The delocalization plan: the outputs loop plus the `ALWAYS_RUN`
consolidated-log copy when `--output` is set (run.go lines 313-329),
continuing from the localization state. -/
def delocalizePlan (cfg : Config)
    (outIter : List (String × String) → List (String × String)) (st : LocState) :
    List Action × List (String × String) × List String :=
  let r := (outIter (namedListOf cfg.outputs "OUTPUT")).foldl
    (fun acc p => delocalizeOutputStep cfg acc p.1 p.2) ([], st.environment, st.directories)
  if cfg.output ≠ "" then
    (r.1 ++ [{ gsutil cfg ["cp", "/google/logs/output", cfg.output] with flags := ["ALWAYS_RUN"] }],
     r.2.1, r.2.2)
  else r

/-- The user-supplied action list of `buildRequest` (run.go lines 331-352):
the optional background log-copy loop, then the parsed script file or the
single `--command` line, or the no-input configuration error. -/
def userActionsPlan (cfg : Config) (script : Option (List String)) :
    Except String (List Action) :=
  let base : List Action :=
    if cfg.outputIntervalNs ≠ 0 && cfg.output ≠ "" then
      [{ bash cfg ["while true; do sleep " ++ toString (roundHalfEvenDiv cfg.outputIntervalNs 1000000000) ++
                   "; gsutil -q cp /google/logs/output " ++ cfg.output ++ "; done"] with
         flags := ["RUN_IN_BACKGROUND"] }]
    else []
  match script with
  | some lines =>
    match parseLines cfg lines with
    | .ok v => .ok (base ++ v)
    | .error e =>
      .error ("creating pipeline from file: line " ++ toString e.1 ++ ": " ++ renderParseErr e.2)
  | none =>
    if cfg.command ≠ "" then
      match parse cfg cfg.command with
      | .ok a => .ok (base ++ [a])
      | .error e => .error ("creating action from command: " ++ renderParseErr e)
    else .error "no command or input file was specified"

/-- The `sharePIDs` stamping of every action (run.go lines 427-431). -/
def stampPIDs (cfg : Config) (actions : List Action) : List Action :=
  if cfg.sharePIDs then actions.map (fun a => { a with pidNamespace := "shared" }) else actions

/-- The first-seen key list of the `disks` set built by `addRequiredDisks`
(run.go lines 550-555): every disk name referenced by any action's mounts,
first occurrence first. -/
def referencedDisks (actions : List Action) : List String :=
  (actions.foldl (fun m action => action.mounts.foldl (fun m mount => mapSet m mount.disk true) m)
    ([] : List (String × Bool))).map (fun p => p.1)

/-- The disk list `addRequiredDisks` appends to the VM (run.go lines
557-568), iterating the `disks` map in the enumeration `iter` (the source's
`for name := range disks` has no specified order; a faithful `iter` is any
permutation of `referencedDisks actions`). -/
def addRequiredDisks (cfg : Config) (iter : List String) : List Disk :=
  iter.foldl
    (fun disks name =>
      disks ++ [{ name := name, type := cfg.diskType, sizeGb := cfg.diskSizeGb,
                  sourceImage := if cfg.diskImage ≠ "" && name == googleRoot.disk
                                 then cfg.diskImage else "" }])
    []

/-- The storage scope appended by `addRequiredScopes`. -/
def storageScope : String := "https://www.googleapis.com/auth/devstorage.read_write"

/-- The per-action condition of `addRequiredScopes` (run.go line 577). -/
def qualifiesForStorageScope (cfg : Config) (action : Action) : Bool :=
  action.imageUri == cfg.cloudSDKImage ||
    (match action.commands with
     | c :: _ => isCloudCommand c
     | [] => false)

/-- `addRequiredScopes` (run.go lines 574-582) as a function of the scope
list: it scans the actions in order and, at the first qualifying action,
appends the storage scope and returns. -/
def addRequiredScopes (cfg : Config) (actions : List Action) (scopes : List String) :
    List String :=
  match actions with
  | [] => scopes
  | action :: rest =>
    if qualifiesForStorageScope cfg action then scopes ++ [storageScope]
    else addRequiredScopes cfg rest scopes

/-- The action sequence, environment and final directory list assembled by
`buildRequest`. -/
structure BuildResult where
  actions : List Action := []
  environment : List (String × String) := []
  directories : List String := []
deriving DecidableEq

/-- The action-assembly part of `buildRequest` (run.go lines 272-352 and
409-431): localization plan, delocalization plan, user actions, then the
pipeline action sequence `[mkdir]`, optional `sshDebug`, localizers, user
actions, delocalizers (lines 414-422), stamped with the shared PID
namespace when configured.  The directory list is always non-empty (it
starts with the `tmp` directory), so `mkdir` never returns `none` here. -/
def buildActions (cfg : Config) (fs : String → Option (List Nat)) (script : Option (List String))
    (project : String)
    (inIter outIter bucketIter : List (String × String) → List (String × String)) :
    Except String BuildResult :=
  match localizePlan cfg fs inIter bucketIter with
  | .error e => .error e
  | .ok st =>
    match userActionsPlan cfg script with
    | .error e => .error e
    | .ok user =>
      let deloc := delocalizePlan cfg outIter st
      let pactions :=
        (mkdir cfg deloc.2.2).toList ++
        (if cfg.ssh then [sshDebug project] else []) ++
        st.localizers ++ user ++ deloc.1
      .ok { actions := stampPIDs cfg pactions, environment := deloc.2.1,
            directories := deloc.2.2 }

/-! ## Concrete instances used by the closed theorems below -/

/-- The configuration with every flag at its default value. -/
def cfgDefault : Config := {}

/-- A config whose only input is a local file path (no storage scheme). -/
def cfgLocalInput : Config := { cfgDefault with inputs := "/tmp/config.txt" }

/-- A config whose two input specifiers name the same path. -/
def cfgDupInputs : Config := { cfgDefault with inputs := "A=/x,B=/x" }

/-- A config running the single command `echo hi`. -/
def cfgEcho : Config := { cfgDefault with command := "echo hi" }

/-- A file system on which every read fails (`ioutil.ReadFile` errors). -/
def fsNone : String → Option (List Nat) := fun _ => none

/-- Two actions mounting the two distinct disks `google` and `data`. -/
def diskActionsC9 : List Action :=
  [{ mounts := [{ disk := "google", path := "/mnt/google" }] },
   { mounts := [{ disk := "data", path := "/mnt/data" }] }]

/-- The action parsed from the command line `echo hi`. -/
def echoAction : Action :=
  { imageUri := "bash", entrypoint := "bash", commands := ["-c", "echo hi"],
    mounts := [googleRoot] }

/-- The localization state of a configuration with no inputs. -/
def locStateEcho : LocState :=
  { environment := [("TMPDIR", "/mnt/google/.google/tmp")],
    directories := ["/mnt/google/.google/tmp"] }

/-- The user action list of `cfgEcho`. -/
def userActionsEcho : List Action := [echoAction]

/-- The build result of `cfgEcho`. -/
def buildResultEcho : BuildResult :=
  { actions := [bash cfgEcho ["mkdir -p /mnt/google/.google/tmp"], echoAction],
    environment := [("TMPDIR", "/mnt/google/.google/tmp")],
    directories := ["/mnt/google/.google/tmp"] }

/-- Well-formedness of one port mapping pair, read off the source's checks:
a `:` at index ≥ 1 and a port text accepted by `strconv.ParseInt(_, 10, 64)`. -/
def portPairOk (pair : String) : Bool :=
  match pair.toList.findIdx? (fun c => c == ':') with
  | none => false
  | some i => decide (1 ≤ i) && (goParseInt64 ((pair.toList.drop (i + 1)).asString)).isSome

/-- The port text of a pair: everything after the first `:`. -/
def portText (pair : String) : String :=
  match pair.toList.findIdx? (fun c => c == ':') with
  | some i => (pair.toList.drop (i + 1)).asString
  | none => ""

/-! # Theorems -/

/-- Elements of a mapped range, by position. -/
theorem getD_map_range {α : Type} (n i : Nat) (f : Nat → α) (d : α) (h : i < n) :
    ((List.range n).map f).getD i d = f i := by
  simp [List.getD_eq_getElem?_getD, List.getElem?_map, List.getElem?_range h]

/-- When every monitored outcome is retriable, the retry loop started at
`attempt` performs one submission per remaining budgeted attempt, the
submission at attempt `a` being preemptible exactly when `a ≤ P`, and ends
in failure. -/
theorem runPipelineLoop_retriable (P N : Nat) (watch : Nat → WatchResult)
    (hw : ∀ a, watch a = WatchResult.retriableError) :
    ∀ fuel attempt, 1 ≤ attempt → attempt ≤ P + N → P + N + 1 - attempt ≤ fuel →
      runPipelineLoop P N true watch attempt fuel =
        ((List.range (P + N + 1 - attempt)).map (fun i => decide (attempt + i ≤ P)),
         RunOutcome.failure) := by
  intro fuel
  induction fuel with
  | zero => intro attempt h1 h2 h3; omega
  | succ fuel ih =>
    intro attempt h1 h2 h3
    rw [runPipelineLoop, hw attempt]
    simp only [Bool.not_true, if_false, Bool.false_eq_true]
    by_cases hlt : attempt < P + N
    · rw [if_pos hlt, ih (attempt + 1) (by omega) (by omega) (by omega)]
      have hk : P + N + 1 - attempt = (P + N + 1 - (attempt + 1)) + 1 := by omega
      rw [hk, List.range_succ_eq_map, List.map_cons, List.map_map]
      have harg : ∀ i, attempt + 1 + i = attempt + Nat.succ i := by omega
      simp only [Function.comp_def, Nat.add_zero, harg, Nat.succ_eq_add_one]
    · rw [if_neg hlt]
      have hk : P + N + 1 - attempt = 1 := by omega
      rw [hk, show List.range 1 = [0] from rfl]
      simp

/-- Claim C1: with preemptible budget `P` and non-preemptible budget `N`,
`P + N > 0`, and every monitored outcome a retriable error, the controller
performs exactly `P + N` submissions; each of the first `P` submissions
marks the VM preemptible and every later submission — in particular the
`(P+1)`-th when it exists — marks it non-preemptible. -/
theorem retry_budget (P N : Nat) (watch : Nat → WatchResult)
    (hPN : 0 < P + N) (hw : ∀ a, watch a = WatchResult.retriableError) :
    (runPipeline P N true watch).1.length = P + N ∧
    (∀ i, i < P → (runPipeline P N true watch).1.getD i false = true) ∧
    (∀ i, P ≤ i → i < P + N → (runPipeline P N true watch).1.getD i true = false) := by
  have h := runPipelineLoop_retriable P N watch hw (P + N + 1) 1 (by omega) (by omega) (by omega)
  have hn : P + N + 1 - 1 = P + N := by omega
  rw [runPipeline, h, hn]
  refine ⟨by simp, ?_, ?_⟩
  · intro i hi
    rw [getD_map_range _ _ _ _ (by omega)]
    simp only [decide_eq_true_eq]
    omega
  · intro i hiP hiN
    rw [getD_map_range _ _ _ _ hiN]
    simp only [decide_eq_false_iff_not]
    omega

/-- Witness for C1 at `P = 1`, `N = 1`: the second submission is
non-preemptible. -/
theorem retry_budget_witness :
    (runPipeline 1 1 true (fun _ => WatchResult.retriableError)).1.getD 1 true = false :=
  (retry_budget 1 1 (fun _ => WatchResult.retriableError) (by decide) (fun _ => rfl)).2.2 1
    (by decide) (by decide)

/-- Claim C2 (a code bug): a script line with no command tokens and no flag
tokens is NOT skipped.  `parse` has no branch returning a nil action, so a
line of white space yields an action with no commands and the default
image, and whole-file parsing appends it: `parseFile`'s `action != nil`
guard never fires.  The claim (and the package's intent) is that such a
line yields no action. -/
theorem parse_blank_line_emits_action (cfg : Config) :
    parse cfg "   " = Except.ok { imageUri := cfg.defaultImage, mounts := [googleRoot] } ∧
    parseLines cfg ["   "] = Except.ok [{ imageUri := cfg.defaultImage, mounts := [googleRoot] }] ∧
    Except.map List.length (parseLines cfg ["   "]) = Except.ok 1 :=
  ⟨rfl, rfl, rfl⟩

/-- Claim C3 (a code bug): an input specifier that is a plain local path is
NOT uploaded.  `parseGCSPath` never inspects the URL scheme, so
`url.Parse` succeeds on `/tmp/config.txt` with an empty host and `ok =
true`; the planner takes the remote branch and emits a `gsutil cp` action.
The local file is never read: the plan below succeeds even though every
file read fails (`fsNone`), and `upload` is dead code. -/
theorem local_input_not_uploaded :
    parseGCSPath "/tmp/config.txt" = ("", true) ∧
    Except.map (fun st => st.localizers) (localizePlan cfgLocalInput fsNone id id) =
      Except.ok [gsutil cfgLocalInput
        ["cp", "/tmp/config.txt", "/mnt/google/.google/input/tmp/config.txt"]] :=
  ⟨by decide, by decide⟩

/-- Claim C8: parsing `"echo hi &  # ports=a:1;b:2 image=foo"` yields an
action with the RUN_IN_BACKGROUND flag, image `foo`, port map
`{a: 1, b: 2}`, entrypoint `bash` and command arguments `["-c", "echo hi"]`
(for every configuration: the explicit image option wins). -/
theorem parse_example_line (cfg : Config) :
    parse cfg "echo hi &  # ports=a:1;b:2 image=foo" = Except.ok
      { imageUri := "foo", entrypoint := "bash", commands := ["-c", "echo hi"],
        flags := ["RUN_IN_BACKGROUND"], mounts := [googleRoot],
        portMappings := [("a", 1), ("b", 2)], timeout := "" } := rfl

/-- `addRequiredScopes` appends the storage scope exactly when some action
qualifies, independently of how many actions qualify. -/
theorem addRequiredScopes_eq (cfg : Config) (actions : List Action) (scopes : List String) :
    addRequiredScopes cfg actions scopes =
      if actions.any (qualifiesForStorageScope cfg) then scopes ++ [storageScope] else scopes := by
  induction actions with
  | nil => simp [addRequiredScopes]
  | cons a rest ih =>
    rw [addRequiredScopes]
    by_cases h : qualifiesForStorageScope cfg a
    · simp [h]
    · simp [h, ih]

/-- Claim C6: the request assembler appends the storage read/write scope at
most once — it is appended exactly when some action's image is the
cloud-SDK image or its first command token is a cloud CLI (the first such
action stops the scan), and nothing is appended when no action qualifies;
the scope count never grows by more than one. -/
theorem scope_augmentation_once (cfg : Config) (actions : List Action) (scopes : List String) :
    (addRequiredScopes cfg actions scopes =
      if actions.any (qualifiesForStorageScope cfg) then scopes ++ [storageScope] else scopes) ∧
    (addRequiredScopes cfg actions scopes).count storageScope ≤ scopes.count storageScope + 1 := by
  refine ⟨addRequiredScopes_eq cfg actions scopes, ?_⟩
  rw [addRequiredScopes_eq]
  by_cases h : actions.any (qualifiesForStorageScope cfg)
  · simp [h, List.count_append]
  · simp [h]

/-- Counterexample to claim C7 as stated: the port text is parsed with
`strconv.ParseInt(_, 10, 64)`, which accepts a sign, so `"a:-1"` parses
successfully to the negative port `-1` even though `-1` is not a
non-negative integer. -/
theorem parsePorts_accepts_negative :
    parsePorts "a:-1" = Except.ok [("a", -1)] ∧
    goParseInt64 (portText "a:-1") = some (-1) ∧ ((-1 : Int) < 0) := by decide

/-- `Except.isOk` on a success. -/
theorem except_isOk_ok {ε α : Type} (a : α) : (Except.ok a : Except ε α).isOk = true := rfl

/-- `Except.isOk` on an error. -/
theorem except_isOk_error {ε α : Type} (e : ε) : (Except.error e : Except ε α).isOk = false := rfl

/-- `parsePortsAux` succeeds exactly when every remaining pair is well
formed. -/
theorem parsePortsAux_isOk (pairs : List String) :
    ∀ acc, (parsePortsAux pairs acc).isOk = pairs.all portPairOk := by
  induction pairs with
  | nil => intro acc; rfl
  | cons pair rest ih =>
    intro acc
    rw [parsePortsAux, List.all_cons, portPairOk]
    cases hfi : pair.toList.findIdx? (fun c => c == ':') with
    | none => simp [hfi, except_isOk_error]
    | some i =>
      by_cases hi : i < 1
      · have h1 : ¬(1 ≤ i) := by omega
        simp [hfi, hi, h1, except_isOk_error]
      · cases hp : goParseInt64 ((pair.toList.drop (i + 1)).asString) with
        | none =>
          have hp' : goParseInt64 ((pair.data.drop (i + 1)).asString) = none := hp
          simp [hfi, hi, hp, hp', except_isOk_error]
        | some n =>
          have hp' : goParseInt64 ((pair.data.drop (i + 1)).asString) = some n := hp
          simp [hfi, hi, hp, hp', ih, Nat.not_lt.mp hi]

/-- An `invalid port mapping` error names a pair of the input that is
malformed. -/
theorem parsePortsAux_error_mapping (pairs : List String) :
    ∀ acc p, parsePortsAux pairs acc = Except.error (PortError.invalidMapping p) →
      p ∈ pairs ∧ portPairOk p = false := by
  induction pairs with
  | nil => intro acc p h; cases h
  | cons pair rest ih =>
    intro acc p h
    rw [parsePortsAux] at h
    cases hfi : pair.toList.findIdx? (fun c => c == ':') with
    | none =>
      simp only [hfi] at h
      cases h
      exact ⟨List.mem_cons_self _ _, by rw [portPairOk, hfi]⟩
    | some i =>
      simp only [hfi] at h
      by_cases hi : i < 1
      · rw [if_pos hi] at h
        cases h
        have h1 : ¬(1 ≤ i) := by omega
        refine ⟨List.mem_cons_self _ _, ?_⟩
        rw [portPairOk, hfi]
        simp [h1]
      · rw [if_neg hi] at h
        cases hp : goParseInt64 ((pair.toList.drop (i + 1)).asString) with
        | none =>
          simp only [hp] at h
          simp at h
        | some n =>
          simp only [hp] at h
          obtain ⟨hmem, hbad⟩ := ih _ p h
          exact ⟨List.mem_cons_of_mem _ hmem, hbad⟩

/-- A `parsing host port` error names the port text of a malformed pair of
the input. -/
theorem parsePortsAux_error_port (pairs : List String) :
    ∀ acc t, parsePortsAux pairs acc = Except.error (PortError.invalidPort t) →
      ∃ p ∈ pairs, portPairOk p = false ∧ portText p = t := by
  induction pairs with
  | nil => intro acc t h; cases h
  | cons pair rest ih =>
    intro acc t h
    rw [parsePortsAux] at h
    cases hfi : pair.toList.findIdx? (fun c => c == ':') with
    | none =>
      simp only [hfi] at h
      simp at h
    | some i =>
      simp only [hfi] at h
      by_cases hi : i < 1
      · rw [if_pos hi] at h; cases h
      · rw [if_neg hi] at h
        cases hp : goParseInt64 ((pair.toList.drop (i + 1)).asString) with
        | none =>
          simp only [hp] at h
          cases h
          refine ⟨pair, List.mem_cons_self _ _, ?_, ?_⟩
          · rw [portPairOk, hfi]
            have hp' : goParseInt64 ((pair.data.drop (i + 1)).asString) = none := hp
            simp [hp, hp']
          · rw [portText, hfi]
        | some n =>
          simp only [hp] at h
          obtain ⟨p, hmem, hbad, htext⟩ := ih _ t h
          exact ⟨p, List.mem_cons_of_mem _ hmem, hbad, htext⟩

/-- Claim C7 (amended): port-mapping parsing succeeds exactly when, in every
`;`-separated pair, the `:` appears at position ≥ 1 and the port text
parses as a base-10 signed 64-bit integer (the source uses
`strconv.ParseInt`, so a negative port is accepted); a malformed pair is a
fatal error for the line that identifies the offending pair (or its port
text). -/
theorem parsePorts_spec (input : String) :
    (parsePorts input).isOk = (splitOnChar ';' input).all portPairOk ∧
    (∀ p, parsePorts input = Except.error (PortError.invalidMapping p) →
      p ∈ splitOnChar ';' input ∧ portPairOk p = false) ∧
    (∀ t, parsePorts input = Except.error (PortError.invalidPort t) →
      ∃ p ∈ splitOnChar ';' input, portPairOk p = false ∧ portText p = t) :=
  ⟨parsePortsAux_isOk (splitOnChar ';' input) [],
   fun p => parsePortsAux_error_mapping (splitOnChar ';' input) [] p,
   fun t => parsePortsAux_error_port (splitOnChar ';' input) [] t⟩

/-- Witness for C7 at the malformed input `"b"`: the error identifies the
offending pair. -/
theorem parsePorts_spec_witness : "b" ∈ splitOnChar ';' "b" ∧ portPairOk "b" = false :=
  (parsePorts_spec "b").2.1 "b" (by decide)

/-- The keys of a map after a write: unchanged when the key was present,
otherwise extended by the new key. -/
theorem keys_mapSet {α : Type} (m : List (String × α)) (k : String) (v : α) :
    (mapSet m k v).map Prod.fst =
      if m.any (fun p => p.1 == k) then m.map Prod.fst else m.map Prod.fst ++ [k] := by
  rw [mapSet]
  by_cases h : m.any (fun p => p.1 == k)
  · rw [if_pos h, if_pos h, List.map_map]
    apply List.map_congr_left
    intro p _
    by_cases hpk : p.1 = k
    · simp [Function.comp_def, hpk]
    · simp [Function.comp_def, hpk]
  · rw [if_neg h, if_neg h, List.map_append]
    rfl

/-- A key occurs in the map exactly when the `any` probe of `mapSet` finds
it. -/
theorem any_eq_mem_keys {α : Type} (m : List (String × α)) (k : String) :
    m.any (fun p => p.1 == k) = true ↔ k ∈ m.map Prod.fst := by
  rw [List.any_eq_true]
  constructor
  · rintro ⟨p, hp, he⟩
    exact List.mem_map.mpr ⟨p, hp, by simpa using he⟩
  · intro hk
    obtain ⟨p, hp, he⟩ := List.mem_map.mp hk
    exact ⟨p, hp, by simp [he]⟩

/-- Membership in the keys after a map write. -/
theorem mem_keys_mapSet {α : Type} (m : List (String × α)) (k k' : String) (v : α) :
    k' ∈ (mapSet m k v).map Prod.fst ↔ k' ∈ m.map Prod.fst ∨ k' = k := by
  rw [keys_mapSet]
  by_cases h : m.any (fun p => p.1 == k)
  · rw [if_pos h]
    constructor
    · exact fun hm => Or.inl hm
    · rintro (hm | rfl)
      · exact hm
      · exact (any_eq_mem_keys m k').mp h
  · rw [if_neg h]
    simp

/-- A map write preserves distinctness of the keys. -/
theorem nodup_keys_mapSet {α : Type} (m : List (String × α)) (k : String) (v : α)
    (h : (m.map Prod.fst).Nodup) : ((mapSet m k v).map Prod.fst).Nodup := by
  rw [keys_mapSet]
  by_cases hh : m.any (fun p => p.1 == k)
  · rwa [if_pos hh]
  · rw [if_neg hh]
    refine List.Nodup.append h (List.nodup_singleton k) ?_
    intro a ha hb
    rw [List.mem_singleton] at hb
    subst hb
    exact hh ((any_eq_mem_keys m a).mpr ha)

/-- One `namedListOf` loop iteration preserves distinctness of the keys. -/
theorem nodup_keys_namedListEntry (pre : String) (out : List (String × String)) (n : Nat)
    (item : String) (h : (out.map Prod.fst).Nodup) :
    ((namedListEntry pre out n item).map Prod.fst).Nodup := by
  rw [namedListEntry]
  by_cases h1 : goIndexChar '=' item > 0
  · rw [if_pos h1]
    exact nodup_keys_mapSet _ _ _ h
  · rw [if_neg h1]
    by_cases h2 : item ≠ ""
    · rw [if_pos h2]
      exact nodup_keys_mapSet _ _ _ h
    · rwa [if_neg h2]

/-- The keys of `namedListOf` are distinct: entries with the same path
collapse into a single binding. -/
theorem nodup_keys_namedListOf (input pre : String) :
    ((namedListOf input pre).map Prod.fst).Nodup := by
  rw [namedListOf]
  have h : ∀ (l : List (Nat × String)) (out : List (String × String)),
      (out.map Prod.fst).Nodup →
      ((l.foldl (fun out p => namedListEntry pre out p.1 p.2) out).map Prod.fst).Nodup := by
    intro l
    induction l with
    | nil => exact fun out h => h
    | cons p rest ih =>
      intro out h
      exact ih _ (nodup_keys_namedListEntry pre out p.1 p.2 h)
  exact h _ [] (by simp)

/-- Claim C10: specifier lists are keyed by the path part of each entry.
Two specifiers with the same path collapse into one binding whose name
comes from the later entry, only one localize action is emitted for that
path, and the default `INPUT<n>` index is the entry's position in the
original comma-separated list (here `INPUT2`, not `INPUT0` or `INPUT1`),
not its position among the surviving entries. -/
theorem namedListOf_keyed_by_path :
    (∀ input pre, ((namedListOf input pre).map Prod.fst).Nodup) ∧
    namedListOf "A=/x,B=/x" "INPUT" = [("/x", "B")] ∧
    namedListOf "/y,A=/y,/y" "INPUT" = [("/y", "INPUT2")] ∧
    Except.map (fun st => st.localizers.length) (localizePlan cfgDupInputs fsNone id id) =
      Except.ok 1 ∧
    Except.map (fun st => st.environment) (localizePlan cfgDupInputs fsNone id id) =
      Except.ok [("TMPDIR", "/mnt/google/.google/tmp"), ("B", "/mnt/google/.google/input/x")] :=
  ⟨nodup_keys_namedListOf, by decide, by decide, by decide, by decide⟩

/-- Counterexample to claim C9 as stated: `addRequiredDisks` iterates the
disk-name set with a Go map `range`, whose order is unspecified; the
enumeration `["data", "google"]` is a permutation of the referenced set of
`diskActionsC9` (whose first-seen order is `["google", "data"]`), and it
yields a different disk list, so the pipeline does not determine the disk
list's order. -/
theorem addRequiredDisks_order_not_deterministic :
    List.Perm ["data", "google"] (referencedDisks diskActionsC9) ∧
    referencedDisks diskActionsC9 = ["google", "data"] ∧
    addRequiredDisks cfgDefault ["data", "google"] ≠
      addRequiredDisks cfgDefault (referencedDisks diskActionsC9) := by decide

/-- The disk names produced by `addRequiredDisks` are exactly the
enumeration it is given. -/
theorem addRequiredDisks_names (cfg : Config) (iter : List String) :
    (addRequiredDisks cfg iter).map Disk.name = iter := by
  rw [addRequiredDisks]
  have h : ∀ (l : List String) (acc : List Disk),
      ((l.foldl (fun disks name =>
        disks ++ [{ name := name, type := cfg.diskType, sizeGb := cfg.diskSizeGb,
                    sourceImage := if cfg.diskImage ≠ "" && name == googleRoot.disk
                                   then cfg.diskImage else "" }]) acc).map Disk.name) =
      acc.map Disk.name ++ l := by
    intro l
    induction l with
    | nil => simp
    | cons x rest ih =>
      intro acc
      rw [List.foldl_cons, ih, List.map_append]
      simp
  simpa using h iter []

/-- The inner fold of `referencedDisks` over one action's mounts: its keys
are the starting keys plus the mounted disk names. -/
theorem mem_keys_mountFold (mounts : List Mount) :
    ∀ (m : List (String × Bool)) (k : String),
      k ∈ ((mounts.foldl (fun m mount => mapSet m mount.disk true) m).map Prod.fst) ↔
        k ∈ m.map Prod.fst ∨ ∃ mnt ∈ mounts, mnt.disk = k := by
  induction mounts with
  | nil => simp
  | cons mnt rest ih =>
    intro m k
    rw [List.foldl_cons, ih, mem_keys_mapSet]
    constructor
    · rintro ((hm | rfl) | hr)
      · exact Or.inl hm
      · exact Or.inr ⟨mnt, List.mem_cons_self _ _, rfl⟩
      · obtain ⟨x, hx, hxk⟩ := hr
        exact Or.inr ⟨x, List.mem_cons_of_mem _ hx, hxk⟩
    · rintro (hm | ⟨x, hx, hxk⟩)
      · exact Or.inl (Or.inl hm)
      · rcases List.mem_cons.mp hx with rfl | hx'
        · exact Or.inl (Or.inr hxk.symm)
        · exact Or.inr ⟨x, hx', hxk⟩

/-- Membership in the referenced-disk set: exactly the disk names mounted
by some action. -/
theorem mem_referencedDisks (actions : List Action) (k : String) :
    k ∈ referencedDisks actions ↔ ∃ a ∈ actions, ∃ mnt ∈ a.mounts, mnt.disk = k := by
  rw [referencedDisks]
  have h : ∀ (l : List Action) (m : List (String × Bool)),
      k ∈ ((l.foldl (fun m action => action.mounts.foldl
            (fun m mount => mapSet m mount.disk true) m) m).map Prod.fst) ↔
        k ∈ m.map Prod.fst ∨ ∃ a ∈ l, ∃ mnt ∈ a.mounts, mnt.disk = k := by
    intro l
    induction l with
    | nil => simp
    | cons a rest ih =>
      intro m
      rw [List.foldl_cons, ih, mem_keys_mountFold]
      constructor
      · rintro ((hm | hmnt) | hr)
        · exact Or.inl hm
        · exact Or.inr ⟨a, List.mem_cons_self _ _, hmnt⟩
        · obtain ⟨x, hx, hmnt⟩ := hr
          exact Or.inr ⟨x, List.mem_cons_of_mem _ hx, hmnt⟩
      · rintro (hm | ⟨x, hx, hmnt⟩)
        · exact Or.inl (Or.inl hm)
        · rcases List.mem_cons.mp hx with rfl | hx'
          · exact Or.inl (Or.inr hmnt)
          · exact Or.inr ⟨x, hx', hmnt⟩
  simpa using h actions []

/-- The inner fold of `referencedDisks` preserves key distinctness. -/
theorem nodup_keys_mountFold (mounts : List Mount) :
    ∀ (m : List (String × Bool)), (m.map Prod.fst).Nodup →
      (((mounts.foldl (fun m mount => mapSet m mount.disk true) m).map Prod.fst)).Nodup := by
  induction mounts with
  | nil => exact fun m h => h
  | cons mnt rest ih =>
    intro m h
    exact ih _ (nodup_keys_mapSet _ _ _ h)

/-- The referenced-disk set has no duplicate names. -/
theorem nodup_referencedDisks (actions : List Action) :
    (referencedDisks actions).Nodup := by
  rw [referencedDisks]
  have h : ∀ (l : List Action) (m : List (String × Bool)), (m.map Prod.fst).Nodup →
      (((l.foldl (fun m action => action.mounts.foldl
        (fun m mount => mapSet m mount.disk true) m) m).map Prod.fst)).Nodup := by
    intro l
    induction l with
    | nil => exact fun m h => h
    | cons a rest ih =>
      intro m h
      exact ih _ (nodup_keys_mountFold a.mounts m h)
  exact h actions [] (by simp)

/-- Claim C9 (amended): for every enumeration `iter` of the disk-name map
(any permutation of the referenced set), the assembled disk list names
exactly the distinct disk names referenced by the actions' mounts, without
duplicates — but its order is the enumeration's, which the Go map `range`
in the source does not determine. -/
theorem addRequiredDisks_distinct (cfg : Config) (actions : List Action) (iter : List String)
    (h : iter.Perm (referencedDisks actions)) :
    (addRequiredDisks cfg iter).map Disk.name = iter ∧
    ((addRequiredDisks cfg iter).map Disk.name).Perm (referencedDisks actions) ∧
    ((addRequiredDisks cfg iter).map Disk.name).Nodup ∧
    (∀ n, n ∈ (addRequiredDisks cfg iter).map Disk.name ↔
      ∃ a ∈ actions, ∃ mnt ∈ a.mounts, mnt.disk = n) := by
  refine ⟨addRequiredDisks_names cfg iter, ?_, ?_, ?_⟩
  · rw [addRequiredDisks_names]
    exact h
  · rw [addRequiredDisks_names]
    exact h.nodup_iff.mpr (nodup_referencedDisks actions)
  · intro n
    rw [addRequiredDisks_names, h.mem_iff, mem_referencedDisks]

/-- Witness for the amended C9 at the first-seen enumeration of
`diskActionsC9`. -/
theorem addRequiredDisks_distinct_witness :
    ((addRequiredDisks cfgDefault (referencedDisks diskActionsC9)).map Disk.name).Nodup :=
  (addRequiredDisks_distinct cfgDefault diskActionsC9 (referencedDisks diskActionsC9)
    (List.Perm.refl _)).2.2.1

/-- One inputs-loop iteration only appends to the directory list. -/
theorem localizeInput_directories (cfg : Config) (fs : String → Option (List Nat))
    (st : LocState) (input name : String) (st' : LocState)
    (h : localizeInput cfg fs st input name = Except.ok st') :
    ∃ t, st'.directories = st.directories ++ t := by
  rw [localizeInput] at h
  by_cases hf : (parseGCSPath input).2 && cfg.fuse
  · rw [if_pos hf] at h
    cases h
    exact ⟨[], by simp⟩
  · rw [if_neg hf] at h
    by_cases hg : (parseGCSPath input).2
    · rw [if_pos hg] at h
      cases h
      by_cases hs : goHasSuffix input "*"
      · exact ⟨[gcsJoin [inputRoot, goTrimRightStar input]], by simp [hs]⟩
      · exact ⟨[], by simp [hs]⟩
    · rw [if_neg hg] at h
      cases hu : upload cfg fs input (gcsJoin [inputRoot, goTrimRightStar input]) with
      | error e =>
        simp only [hu] at h
        exact Except.noConfusion h
      | ok action =>
        simp only [hu] at h
        cases h
        by_cases hs : goHasSuffix input "*"
        · exact ⟨[gcsJoin [inputRoot, goTrimRightStar input]], by simp [hs]⟩
        · exact ⟨[], by simp [hs]⟩

/-- The inputs loop only appends to the directory list. -/
theorem localizeLoop_directories (cfg : Config) (fs : String → Option (List Nat)) :
    ∀ (entries : List (String × String)) (st st' : LocState),
      localizeLoop cfg fs entries st = Except.ok st' →
      ∃ t, st'.directories = st.directories ++ t := by
  intro entries
  induction entries with
  | nil =>
    intro st st' h
    cases h
    exact ⟨[], by simp⟩
  | cons p rest ih =>
    intro st st' h
    rw [localizeLoop] at h
    cases hi : localizeInput cfg fs st p.1 p.2 with
    | error e =>
      simp only [hi] at h
      exact Except.noConfusion h
    | ok st1 =>
      simp only [hi] at h
      obtain ⟨t1, ht1⟩ := localizeInput_directories cfg fs st p.1 p.2 st1 hi
      obtain ⟨t2, ht2⟩ := ih st1 st' h
      exact ⟨t1 ++ t2, by rw [ht2, ht1, List.append_assoc]⟩

/-- The localization plan's directory list starts with the `tmp`
directory. -/
theorem localizePlan_directories (cfg : Config) (fs : String → Option (List Nat))
    (inIter bucketIter : List (String × String) → List (String × String)) (st : LocState)
    (h : localizePlan cfg fs inIter bucketIter = Except.ok st) :
    ∃ t, st.directories = googlePath "tmp" :: t := by
  rw [localizePlan] at h
  cases hl : localizeLoop cfg fs (inIter (namedListOf cfg.inputs "INPUT"))
      { environment := mapSet cfg.envFlags "TMPDIR" (googlePath "tmp"),
        directories := [googlePath "tmp"] } with
  | error e =>
    simp only [hl] at h
    exact Except.noConfusion h
  | ok st1 =>
    simp only [hl] at h
    obtain ⟨t1, ht1⟩ := localizeLoop_directories cfg fs _ _ _ hl
    by_cases hb : st1.buckets.isEmpty
    · rw [if_pos hb] at h
      cases h
      exact ⟨t1, by simpa using ht1⟩
    · rw [if_neg hb] at h
      cases h
      refine ⟨t1 ++ (bucketIter st1.buckets).map (fun p => p.2), ?_⟩
      simp only [ht1]
      simp

/-- The outputs loop only appends to the directory list. -/
theorem delocalizePlan_directories (cfg : Config)
    (outIter : List (String × String) → List (String × String)) (st : LocState) :
    ∃ t, (delocalizePlan cfg outIter st).2.2 = st.directories ++ t := by
  rw [delocalizePlan]
  have h : ∀ (entries : List (String × String))
      (acc : List Action × List (String × String) × List String),
      ∃ t, (entries.foldl (fun acc p => delocalizeOutputStep cfg acc p.1 p.2) acc).2.2 =
        acc.2.2 ++ t := by
    intro entries
    induction entries with
    | nil => exact fun acc => ⟨[], by simp⟩
    | cons p rest ih =>
      intro acc
      rw [List.foldl_cons]
      obtain ⟨t2, ht2⟩ := ih (delocalizeOutputStep cfg acc p.1 p.2)
      rw [ht2, delocalizeOutputStep]
      by_cases hs : goHasSuffix p.1 "*"
      · exact ⟨[gcsJoin [outputRoot, goTrimRightStar p.1]] ++ t2, by simp [hs]⟩
      · exact ⟨[pathDir (gcsJoin [outputRoot, goTrimRightStar p.1])] ++ t2, by simp [hs]⟩
  obtain ⟨t, ht⟩ := h (outIter (namedListOf cfg.outputs "OUTPUT")) ([], st.environment, st.directories)
  by_cases ho : cfg.output ≠ ""
  · rw [if_pos ho]
    exact ⟨t, ht⟩
  · rw [if_neg ho]
    exact ⟨t, ht⟩

/-- Claim C4: on every successful assembly, the pipeline's action sequence
is, in order: the directory-creation step (which exists: the directory list
is never empty), the optional ssh debug step, the localization steps, the
user-supplied steps, and the delocalization steps — each group exactly as
produced by its planner, with only the shared-PID stamping applied on
top. -/
theorem pipeline_action_order (cfg : Config) (fs : String → Option (List Nat))
    (script : Option (List String)) (project : String)
    (inIter outIter bucketIter : List (String × String) → List (String × String))
    (st : LocState) (user : List Action) (r : BuildResult)
    (hst : localizePlan cfg fs inIter bucketIter = Except.ok st)
    (huser : userActionsPlan cfg script = Except.ok user)
    (h : buildActions cfg fs script project inIter outIter bucketIter = Except.ok r) :
    (delocalizePlan cfg outIter st).2.2 ≠ [] ∧
    (mkdir cfg (delocalizePlan cfg outIter st).2.2).isSome = true ∧
    r.actions = stampPIDs cfg
      ((mkdir cfg (delocalizePlan cfg outIter st).2.2).toList ++
       (if cfg.ssh then [sshDebug project] else []) ++
       st.localizers ++ user ++ (delocalizePlan cfg outIter st).1) := by
  obtain ⟨t1, ht1⟩ := localizePlan_directories cfg fs inIter bucketIter st hst
  obtain ⟨t2, ht2⟩ := delocalizePlan_directories cfg outIter st
  have hne : (delocalizePlan cfg outIter st).2.2 ≠ [] := by
    rw [ht2, ht1]
    simp
  refine ⟨hne, ?_, ?_⟩
  · rw [mkdir, if_neg (by simpa [List.isEmpty_iff] using hne)]
    rfl
  · rw [buildActions] at h
    simp only [hst, huser] at h
    cases h
    rfl

/-- `goStringLeAux` decides "equal or lexicographically smaller". -/
theorem goStringLeAux_iff (xs : List Char) : ∀ (ys : List Char),
    goStringLeAux xs ys = true ↔ (xs = ys ∨ List.Lex (· < ·) xs ys) := by
  induction xs with
  | nil =>
    intro ys
    cases ys with
    | nil => simp [goStringLeAux]
    | cons y ys =>
      rw [goStringLeAux]
      exact iff_of_true rfl (Or.inr List.Lex.nil)
  | cons x xs ih =>
    intro ys
    cases ys with
    | nil =>
      rw [goStringLeAux]
      constructor
      · intro h; cases h
      · rintro (h | h)
        · cases h
        · exact absurd h (List.Lex.not_nil_right _ _)
    | cons y ys =>
      rw [goStringLeAux]
      by_cases hxy : x < y
      · rw [if_pos hxy]
        exact iff_of_true rfl (Or.inr (List.Lex.rel hxy))
      · rw [if_neg hxy]
        by_cases hyx : y < x
        · rw [if_pos hyx]
          constructor
          · intro h; cases h
          · rintro (h | h)
            · rw [List.cons.injEq] at h
              exact absurd (h.1 ▸ hyx) (lt_irrefl x)
            · cases h with
              | cons h' => exact absurd hyx (lt_irrefl x)
              | rel hrel => exact absurd hrel hxy
        · rw [if_neg hyx]
          have hxy' : x = y := le_antisymm (le_of_not_lt hyx) (le_of_not_lt hxy)
          subst hxy'
          rw [ih ys]
          constructor
          · rintro (rfl | h)
            · exact Or.inl rfl
            · exact Or.inr (List.Lex.cons h)
          · rintro (h | h)
            · rw [List.cons.injEq] at h
              exact Or.inl h.2
            · cases h with
              | cons h' => exact Or.inr h'
              | rel hrel => exact absurd hrel (lt_irrefl x)

/-- `goStringLe` agrees with the string order. -/
theorem goStringLe_iff (a b : String) : goStringLe a b = true ↔ a ≤ b := by
  rw [goStringLe, goStringLeAux_iff, String.le_iff_toList_le]
  exact Iff.rfl

/-- A proper prefix is lexicographically smaller. -/
theorem lex_of_prefix_ne : ∀ (l₁ l₂ : List Char), l₁ <+: l₂ → l₁ ≠ l₂ →
    List.Lex (· < ·) l₁ l₂ := by
  intro l₁
  induction l₁ with
  | nil =>
    intro l₂ _ hne
    cases l₂ with
    | nil => exact absurd rfl hne
    | cons y ys => exact List.Lex.nil
  | cons x xs ih =>
    intro l₂ hp hne
    obtain ⟨t, ht⟩ := hp
    cases ht
    apply List.Lex.cons
    apply ih
    · exact ⟨t, rfl⟩
    · intro he
      apply hne
      rw [List.cons_append]
      exact congrArg (fun l => x :: l) he

/-- Extending the smaller list past an unshared position preserves `Lex`. -/
theorem lex_append_of_not_prefix (l c : List Char) (t : List Char)
    (h : List.Lex (· < ·) l c) : ¬ l <+: c → List.Lex (· < ·) (l ++ t) c := by
  induction h with
  | nil => intro hnp; exact absurd (List.nil_prefix) hnp
  | rel hr => intro _; exact List.Lex.rel hr
  | @cons a l₁ l₂ h ih =>
    intro hnp
    apply List.Lex.cons
    apply ih
    intro hp
    obtain ⟨s, hs⟩ := hp
    exact hnp ⟨s, by rw [List.cons_append, hs]⟩

/-- A path that has another path as a proper string prefix is strictly
larger in the string order. -/
theorem lt_of_prefix_ne (a b : String) (hp : goHasPrefix b a = true) (hne : a ≠ b) : a < b := by
  rw [goHasPrefix, List.isPrefixOf_iff_prefix] at hp
  rw [String.lt_iff_toList_lt]
  exact lex_of_prefix_ne _ _ hp (fun he => hne (String.toList_inj.mp he))

/-- If `a` is a prefix of `b`, `a < c`, and `a` is not a prefix of `c`,
then `b < c`: between a path and its extensions no unrelated path
intervenes. -/
theorem lt_of_lt_not_prefix (a b c : String) (hab : goHasPrefix b a = true)
    (hac : a < c) (hnp : goHasPrefix c a = false) : b < c := by
  rw [goHasPrefix, List.isPrefixOf_iff_prefix] at hab
  rw [String.lt_iff_toList_lt] at hac ⊢
  obtain ⟨t, ht⟩ := hab
  rw [← ht]
  apply lex_append_of_not_prefix _ _ _ hac
  intro hp
  rw [goHasPrefix] at hnp
  rw [← List.isPrefixOf_iff_prefix] at hp
  rw [hp] at hnp
  cases hnp

/-- `insertSorted` builds a permutation of the cons. -/
theorem insertSorted_perm (x : String) : ∀ (l : List String),
    (insertSorted x l).Perm (x :: l) := by
  intro l
  induction l with
  | nil => exact List.Perm.refl _
  | cons y ys ih =>
    rw [insertSorted]
    by_cases h : goStringLe x y = true
    · rw [if_pos h]
    · rw [if_neg h]
      exact (ih.cons y).trans (List.Perm.swap x y ys)

/-- `sortStrings` permutes its input. -/
theorem sortStrings_perm : ∀ (l : List String), (sortStrings l).Perm l := by
  intro l
  induction l with
  | nil => exact List.Perm.refl _
  | cons x xs ih =>
    rw [sortStrings]
    exact (insertSorted_perm x (sortStrings xs)).trans (ih.cons x)

/-- `insertSorted` preserves sortedness. -/
theorem sorted_insertSorted (x : String) : ∀ (l : List String),
    l.Sorted (· ≤ ·) → (insertSorted x l).Sorted (· ≤ ·) := by
  intro l
  induction l with
  | nil => intro _; simp [insertSorted]
  | cons y ys ih =>
    intro hs
    rw [List.sorted_cons] at hs
    rw [insertSorted]
    by_cases h : goStringLe x y = true
    · rw [if_pos h]
      rw [List.sorted_cons]
      refine ⟨?_, List.sorted_cons.mpr hs⟩
      intro b hb
      rcases List.mem_cons.mp hb with rfl | hb'
      · exact (goStringLe_iff x b).mp h
      · exact le_trans ((goStringLe_iff x y).mp h) (hs.1 b hb')
    · rw [if_neg h]
      have hyx : y ≤ x := by
        rcases le_total x y with hxy | hyx
        · exact absurd ((goStringLe_iff x y).mpr hxy) h
        · exact hyx
      rw [List.sorted_cons]
      refine ⟨?_, ih hs.2⟩
      intro b hb
      rw [(insertSorted_perm x ys).mem_iff] at hb
      rcases List.mem_cons.mp hb with rfl | hb'
      · exact hyx
      · exact hs.1 b hb'

/-- The model of `sort.Strings` sorts. -/
theorem sorted_sortStrings : ∀ (l : List String), (sortStrings l).Sorted (· ≤ ·) := by
  intro l
  induction l with
  | nil => simp [sortStrings]
  | cons x xs ih =>
    rw [sortStrings]
    exact sorted_insertSorted x (sortStrings xs) ih

/-- Every element of the merge scan's output comes from its inputs. -/
theorem mem_mergeLoop (x : String) : ∀ (rest : List String) (cur : String) (acc : List String),
    x ∈ mergeLoop rest cur acc → x ∈ acc ∨ x = cur ∨ x ∈ rest := by
  intro rest
  induction rest with
  | nil =>
    intro cur acc h
    rw [mergeLoop, List.mem_reverse] at h
    rcases List.mem_cons.mp h with rfl | h'
    · exact Or.inr (Or.inl rfl)
    · exact Or.inl h'
  | cons d rest ih =>
    intro cur acc h
    rw [mergeLoop] at h
    by_cases hp : goHasPrefix d cur = true
    · rw [if_pos hp] at h
      rcases ih d acc h with h1 | h2 | h3
      · exact Or.inl h1
      · exact Or.inr (Or.inr (by rw [h2]; exact List.mem_cons_self d rest))
      · exact Or.inr (Or.inr (List.mem_cons_of_mem d h3))
    · rw [if_neg hp] at h
      rcases ih d (cur :: acc) h with h1 | h2 | h3
      · rcases List.mem_cons.mp h1 with rfl | h1'
        · exact Or.inr (Or.inl rfl)
        · exact Or.inl h1'
      · exact Or.inr (Or.inr (by rw [h2]; exact List.mem_cons_self d rest))
      · exact Or.inr (Or.inr (List.mem_cons_of_mem d h3))

/-- The merge scan never lengthens the list. -/
theorem length_mergeLoop : ∀ (rest : List String) (cur : String) (acc : List String),
    (mergeLoop rest cur acc).length ≤ rest.length + 1 + acc.length := by
  intro rest
  induction rest with
  | nil =>
    intro cur acc
    simp [mergeLoop]
    omega
  | cons d rest ih =>
    intro cur acc
    rw [mergeLoop]
    by_cases hp : goHasPrefix d cur = true
    · rw [if_pos hp]
      have h := ih d acc
      simp only [List.length_cons]
      omega
    · rw [if_neg hp]
      have h := ih d (cur :: acc)
      simp only [List.length_cons] at h ⊢
      omega

/-- The merge scan of a sorted remainder with a strictly descending
accumulator produces a sorted output. -/
theorem sorted_mergeLoop : ∀ (rest : List String) (cur : String) (acc : List String),
    (cur :: rest).Sorted (· ≤ ·) → (cur :: acc).Chain' (· > ·) →
    (mergeLoop rest cur acc).Sorted (· ≤ ·) := by
  intro rest
  induction rest with
  | nil =>
    intro cur acc _ hch
    rw [mergeLoop]
    have hpw : (cur :: acc).Pairwise (· > ·) := List.chain'_iff_pairwise.mp hch
    have hrev : ((cur :: acc).reverse).Pairwise (· < ·) := List.pairwise_reverse.mpr hpw
    exact hrev.imp (fun h => le_of_lt h)
  | cons d rest ih =>
    intro cur acc hs hch
    rw [mergeLoop]
    rw [List.sorted_cons] at hs
    have hcd : cur ≤ d := hs.1 d (List.mem_cons_self d rest)
    by_cases hp : goHasPrefix d cur = true
    · rw [if_pos hp]
      apply ih d acc hs.2
      cases acc with
      | nil => exact List.chain'_singleton d
      | cons a as =>
        rw [List.chain'_cons] at hch ⊢
        exact ⟨lt_of_lt_of_le hch.1 hcd, hch.2⟩
    · rw [if_neg hp]
      apply ih d (cur :: acc) hs.2
      rw [List.chain'_cons]
      refine ⟨?_, hch⟩
      have hne : cur ≠ d := by
        rintro rfl
        exact hp (by rw [goHasPrefix]; exact List.isPrefixOf_iff_prefix.mpr (List.prefix_refl _))
      exact lt_of_le_of_ne hcd hne

/-- In the scan of a sorted list, a strict prefix of a later element never
survives: the extension (or an intermediate path it prefixes) replaces it
before it can be emitted. -/
theorem not_mem_mergeLoop (a b : String) (hpre : goHasPrefix b a = true) (hne : a ≠ b) :
    ∀ (rest : List String) (cur : String) (acc : List String),
      (cur :: rest).Sorted (· ≤ ·) → a ∉ acc → b ∈ rest →
      a ∉ mergeLoop rest cur acc := by
  have hab : a < b := lt_of_prefix_ne a b hpre hne
  intro rest
  induction rest with
  | nil =>
    intro cur acc _ _ hb
    cases hb
  | cons d rest ih =>
    intro cur acc hs hacc hb
    rw [mergeLoop]
    rw [List.sorted_cons] at hs
    have hsd : (d :: rest).Sorted (· ≤ ·) := hs.2
    have hnotrest : b = d → a ∉ rest := by
      intro hbd ha
      have hda : d ≤ a := (List.sorted_cons.mp hsd).1 a ha
      rw [← hbd] at hda
      exact absurd hda (not_le_of_lt hab)
    by_cases hp : goHasPrefix d cur = true
    · rw [if_pos hp]
      rcases List.mem_cons.mp hb with hbd | hb'
      · intro hmem
        rcases mem_mergeLoop a rest d acc hmem with h1 | h2 | h3
        · exact hacc h1
        · exact hne (h2.trans hbd.symm)
        · exact hnotrest hbd h3
      · exact ih d acc hsd hacc hb'
    · rw [if_neg hp]
      have hdb : d ≤ b := by
        rcases List.mem_cons.mp hb with hbd | hb'
        · exact le_of_eq hbd.symm
        · exact (List.sorted_cons.mp hsd).1 b hb'
      have hcur : cur ≠ a := by
        rintro rfl
        have hnead : cur ≠ d := by
          rintro rfl
          exact hp (by rw [goHasPrefix]; exact List.isPrefixOf_iff_prefix.mpr (List.prefix_refl _))
        have hacd : cur < d := lt_of_le_of_ne (hs.1 d (List.mem_cons_self d rest)) hnead
        have hpd : goHasPrefix d cur = false := by simpa using hp
        have hbd2 : b < d := lt_of_lt_not_prefix cur b d hpre hacd hpd
        exact absurd hdb (not_le_of_lt hbd2)
      have hacc' : a ∉ cur :: acc := by
        intro h
        rcases List.mem_cons.mp h with rfl | h'
        · exact hcur rfl
        · exact hacc h'
      rcases List.mem_cons.mp hb with hbd | hb'
      · intro hmem
        rcases mem_mergeLoop a rest d (cur :: acc) hmem with h1 | h2 | h3
        · exact hacc' h1
        · exact hne (h2.trans hbd.symm)
        · exact hnotrest hbd h3
      · exact ih d (cur :: acc) hsd hacc' hb'

/-- Claim C5: the directory merger, on every input collection: for any two
input paths where one is a strict string prefix of the other, only the
longer can appear in the output (the shorter is dropped); the output is
never longer than the input; and the output is sorted lexicographically. -/
theorem mkdir_merge_spec (directories : List String) :
    (∀ a b, a ∈ directories → b ∈ directories → goHasPrefix b a = true → a ≠ b →
      a ∉ mkdirArguments directories) ∧
    (mkdirArguments directories).length ≤ directories.length ∧
    (mkdirArguments directories).Sorted (· ≤ ·) := by
  refine ⟨?_, ?_, ?_⟩
  · intro a b ha hb hpre hne
    rw [mkdirArguments]
    have hperm := sortStrings_perm directories
    have ha' : a ∈ sortStrings directories := hperm.mem_iff.mpr ha
    have hb' : b ∈ sortStrings directories := hperm.mem_iff.mpr hb
    have hsorted := sorted_sortStrings directories
    have hab : a < b := lt_of_prefix_ne a b hpre hne
    cases hss : sortStrings directories with
    | nil =>
      rw [hss] at ha'
      cases ha'
    | cons d rest =>
      rw [hss] at ha' hb' hsorted
      have hbrest : b ∈ rest := by
        rcases List.mem_cons.mp hb' with hbd | h'
        · exfalso
          rcases List.mem_cons.mp ha' with had | h''
          · exact hne (had.trans hbd.symm)
          · have hda : d ≤ a := (List.sorted_cons.mp hsorted).1 a h''
            rw [← hbd] at hda
            exact absurd hda (not_le_of_lt hab)
        · exact h'
      exact not_mem_mergeLoop a b hpre hne rest d [] hsorted (by simp) hbrest
  · rw [mkdirArguments]
    cases hss : sortStrings directories with
    | nil => simp
    | cons d rest =>
      have hlen : (sortStrings directories).length = directories.length :=
        (sortStrings_perm directories).length_eq
      rw [hss] at hlen
      have h := length_mergeLoop rest d []
      simp only [List.length_cons] at hlen
      simp only [List.length_nil] at h
      show (mergeLoop rest d []).length ≤ directories.length
      omega
  · rw [mkdirArguments]
    cases hss : sortStrings directories with
    | nil => simp
    | cons d rest =>
      have hsorted := sorted_sortStrings directories
      rw [hss] at hsorted
      exact sorted_mergeLoop rest d [] hsorted (List.chain'_singleton d)

/-- Witness for C5: the prefix `/a` of `/a/b` is dropped from the merge of
`["/a", "/a/b"]`. -/
theorem mkdir_merge_spec_witness : "/a" ∉ mkdirArguments ["/a", "/a/b"] :=
  (mkdir_merge_spec ["/a", "/a/b"]).1 "/a" "/a/b" (by decide) (by decide) (by decide) (by decide)

/-- Witness for C4 at the default configuration running `echo hi`. -/
theorem pipeline_action_order_witness :
    (delocalizePlan cfgEcho id locStateEcho).2.2 ≠ [] ∧
    (mkdir cfgEcho (delocalizePlan cfgEcho id locStateEcho).2.2).isSome = true ∧
    (buildResultEcho).actions = stampPIDs cfgEcho
      ((mkdir cfgEcho (delocalizePlan cfgEcho id locStateEcho).2.2).toList ++
       (if cfgEcho.ssh then [sshDebug "p"] else []) ++
       locStateEcho.localizers ++ userActionsEcho ++ (delocalizePlan cfgEcho id locStateEcho).1) :=
  pipeline_action_order cfgEcho fsNone none "p" id id id locStateEcho userActionsEcho
    buildResultEcho (by decide) (by decide) (by decide)

end Run
